import Mathlib

/-!
Shallow embedding of the core of heyvito/semver-releaser (Go).

Go strings are modelled as `List Char`.  The embedded functions mirror,
definition by definition, the source in `main.go` and the `eql` package:

* `eqlParse`        — `eql.Parse` (the key=value configuration language);
* `ParseCommit`     — `ParseCommit`, with `parseHeader` embedding the anchored
                      regular expression `conventionalRegexp` and `mlm` the
                      unanchored `multiLineCommit` regular expression;
* `determineBump`   — `determineBump`;
* `makeReleaseText` — `makeReleaseText` (plus `wildcardLines`, the `others`
                      bucket the Go function collects);
* `collectConventionals` — the commit-collection loop of `run`;
* `parseSemVer` / `nextVersionModel` — the version arithmetic of `run`.

Go maps (`Rules`, `Categories`, result of `eql.Parse`) are modelled as
association lists with unique keys; where Go iterates a map, the embedding
iterates the list in order, making the (in Go unspecified) traversal order an
explicit parameter of the model.  `strings.ToLower` / `unicode` classification
are modelled on the ASCII range, which is the range all comparisons in this
program use.
-/

namespace SemverReleaser

/-- Model of Go `unicode.IsSpace` restricted to the ASCII white-space
characters (`\t \n \v \f \r ' '`), the only ones relevant here. -/
def isGoSpace (c : Char) : Bool :=
  c = ' ' ∨ c = '\t' ∨ c = '\n' ∨ c = '\x0b' ∨ c = '\x0c' ∨ c = '\r'

/-- Model of Go `strings.TrimSpace`: drop white space from both ends. -/
def trimSpace (l : List Char) : List Char :=
  ((l.dropWhile isGoSpace).reverse.dropWhile isGoSpace).reverse

/-- Model of Go `strings.ToLower` (ASCII range; `Char.toLower` lowers
exactly the ASCII uppercase letters). -/
def lowerStr (l : List Char) : List Char :=
  l.map Char.toLower

/-! ## The `eql` configuration-language parser (`eql.Parse`) -/

/-- The three states of `eql.Parse`'s scanner (`stateKey`, `stateValue`,
`stateQuote`). -/
inductive EqlState
  | key
  | value
  | quote
deriving DecidableEq, Repr

/-- The two error outcomes of `eql.Parse`: `"unexpected '=' at position %d"`
(carrying the reported 1-based position) and `"unterminated quoted string"`. -/
inductive EqlErr
  | unexpectedEq (pos : Nat)
  | unterminated
deriving DecidableEq, Repr

/-- The scanner state of `eql.Parse`: Go locals `s`, `isEscaping`,
`quoteStyle`, `tmpKey`, `tmpValue`, `result`, plus `pos`, the byte offset of
the next rune (Go's `for i, r := range str` yields byte offsets). -/
structure EqlSt where
  st : EqlState
  isEscaping : Bool
  quoteStyle : Char
  tmpKey : List Char
  tmpValue : List Char
  result : List (List Char × List Char)
  pos : Nat
deriving DecidableEq, Repr

/-- Go map assignment `result[k] = v` on the association-list model:
overwrite an existing binding, otherwise append. -/
def setKV (m : List (List Char × List Char)) (k v : List Char) :
    List (List Char × List Char) :=
  match m with
  | [] => [(k, v)]
  | (k0, v0) :: rest =>
      if k0 = k then (k, v) :: rest else (k0, v0) :: setKV rest k v

/-- The `pushAndReset` closure of `eql.Parse`: commit the trimmed key/value pair and
return to `stateKey`.  (`quoteStyle` is deliberately not reset, as in Go.) -/
def pushAndReset (σ : EqlSt) : EqlSt :=
  { σ with
    result := setKV σ.result (trimSpace σ.tmpKey) (trimSpace σ.tmpValue)
    tmpKey := []
    tmpValue := []
    isEscaping := false
    st := .key }

/-- One iteration of `eql.Parse`'s scan loop on rune `r`.  The byte position
advances by the rune's UTF-8 size.  In the `stateValue` quote test the Go
source reads `r == '"' || r == '\'' && len(tmpValue) == 0`; Go's `&&` binds
tighter than `||`, so the `len(tmpValue) == 0` guard applies only to `'`,
which the explicit parentheses below preserve. -/
def eqlStep (σ : EqlSt) (r : Char) : Except EqlErr EqlSt :=
  let σ2 : EqlSt := { σ with pos := σ.pos + r.utf8Size }
  match σ.st with
  | .key =>
      if r = ' ' ∧ σ.tmpKey = [] then .ok σ2
      else if r = '=' then
        if σ.tmpKey = [] then .error (.unexpectedEq (σ.pos + 1))
        else .ok { σ2 with st := .value }
      else .ok { σ2 with tmpKey := σ.tmpKey ++ [r] }
  | .value =>
      if σ.tmpValue = [] ∧ r = ' ' then .ok σ2
      else if r = '"' ∨ (r = '\'' ∧ σ.tmpValue = []) then
        .ok { σ2 with st := .quote, quoteStyle := r }
      else if r = ' ' then .ok (pushAndReset σ2)
      else .ok { σ2 with tmpValue := σ.tmpValue ++ [r] }
  | .quote =>
      if r = '\\' then .ok { σ2 with isEscaping := true }
      else if σ.isEscaping then
        .ok { σ2 with
              tmpValue :=
                (if r ≠ σ.quoteStyle then σ.tmpValue ++ ['\\'] else σ.tmpValue)
                  ++ [r]
              isEscaping := false }
      else if r = σ.quoteStyle then .ok (pushAndReset σ2)
      else .ok { σ2 with tmpValue := σ.tmpValue ++ [r] }

/-- Run the scan loop over the remaining input. -/
def eqlRun (σ : EqlSt) : List Char → Except EqlErr EqlSt
  | [] => .ok σ
  | c :: rest =>
      match eqlStep σ c with
      | .error e => .error e
      | .ok σ2 => eqlRun σ2 rest

/-- The initial scanner state of `eql.Parse`. -/
def eqlInit : EqlSt :=
  { st := .key, isEscaping := false, quoteStyle := ' '
    tmpKey := [], tmpValue := [], result := [], pos := 0 }

/-- Go's `eql.Parse`: run the scanner, then fail on an unterminated quote, flush a
pending value, and return the accumulated mapping. -/
def eqlParse (l : List Char) : Except EqlErr (List (List Char × List Char)) :=
  match eqlRun eqlInit l with
  | .error e => .error e
  | .ok σ =>
      if σ.st = .quote then .error .unterminated
      else if σ.st = .value then .ok (pushAndReset σ).result
      else .ok σ.result

/-! ## The conventional-commit parser (`ParseCommit`) -/

/-- Go's `SemVerComponent` enumeration (`iota`: None = 0, Patch = 1,
Minor = 2, Major = 3). -/
inductive SemVerComponent
  | SemVerNone
  | SemVerPatch
  | SemVerMinor
  | SemVerMajor
deriving DecidableEq, Repr

open SemVerComponent

/-- The underlying `int` value of a `SemVerComponent`; Go compares the
constants with `<` and `>` on these values. -/
def SemVerComponent.val : SemVerComponent → Nat
  | SemVerNone => 0
  | SemVerPatch => 1
  | SemVerMinor => 2
  | SemVerMajor => 3

/-- Go's `ConventionalCommit` struct.  (`semVerChange` exists in the struct
but is never assigned by the v2 code path; it stays at its zero value.) -/
structure ConventionalCommit where
  type : List Char
  semVerChange : SemVerComponent
  scope : List Char
  description : List Char
  body : List Char
  bang : Bool
deriving DecidableEq, Repr

/-- Model of Go `strings.Split(s, sep)` for a single-character separator:
always returns at least one (possibly empty) piece. -/
def splitOnChar (sep : Char) : List Char → List (List Char)
  | [] => [[]]
  | c :: rest =>
      if c = sep then [] :: splitOnChar sep rest
      else
        match splitOnChar sep rest with
        | [] => [[c]]
        | h :: t => (c :: h) :: t

/-- Model of Go `strings.Join(l, "\n")`. -/
def joinNl : List (List Char) → List Char
  | [] => []
  | [x] => x
  | x :: xs => x ++ '\n' :: joinNl xs

/-- Does the list start with at least two newlines followed by a
non-newline character?  (Helper for `mlm`.) -/
def gapAfter (l : List Char) : Bool :=
  2 ≤ (l.takeWhile (fun c => c = '\n')).length ∧
    l.dropWhile (fun c => c = '\n') ≠ []

/-- Model of `multiLineCommit.MatchString`, the unanchored Go regular
expression `(.+)\n{2,}(.+\n*)+` (where `.` does not match `\n`).  Such a
match exists exactly when somewhere in the string a non-newline character is
followed by a maximal run of two or more newlines that is in turn followed by
a non-newline character: the `(.+)` group must end right before the newline
run, `\n{2,}` must consume the whole run (because `(.+…)` cannot start with a
newline), and `(.+\n*)+` needs at least one non-newline character after it. -/
def mlm : List Char → Bool
  | [] => false
  | c :: rest => (c ≠ '\n' ∧ gapAfter rest) ∨ mlm rest

/-- The character class `[^(:!]` that delimits the `type` group of
`conventionalRegexp`. -/
def headerBad (c : Char) : Bool :=
  c = '(' ∨ c = ':' ∨ c = '!'

/-- The suffix `(!)?: ([^\n]+)$` of `conventionalRegexp`: an optional bang,
the literal `": "`, then a non-empty newline-free description running to the
end of the text (Go's `$` anchors at end of text). -/
def afterScope (g1 s rest : List Char) : Option ConventionalCommit :=
  match rest with
  | '!' :: ':' :: ' ' :: d =>
      if d ≠ [] ∧ d.all (fun c => c ≠ '\n') then
        some { type := g1, semVerChange := SemVerNone, scope := s
               description := d, body := [], bang := true }
      else none
  | ':' :: ' ' :: d =>
      if d ≠ [] ∧ d.all (fun c => c ≠ '\n') then
        some { type := g1, semVerChange := SemVerNone, scope := s
               description := d, body := [], bang := false }
      else none
  | _ => none

/-- The single-line branch of `ParseCommit`: match the anchored regular
expression `^([^(:!]+)(?:\(([^)]+)\))?(!)?: ([^\n]+)$` and build the
`ConventionalCommit` from its four groups.  The greedy groups are forced:
group 1 must be the maximal `(`/`:`/`!`-free prefix (the next pattern element
only accepts one of those three characters), and when a `(` follows, the
scope group must run to the first `)`. -/
def parseHeader (msg : List Char) : Option ConventionalCommit :=
  let g1 := msg.takeWhile (fun c => ¬ headerBad c)
  let rest := msg.dropWhile (fun c => ¬ headerBad c)
  if g1 = [] then none
  else
    match rest with
    | '(' :: r2 =>
        let s := r2.takeWhile (fun c => c ≠ ')')
        let r3 := r2.dropWhile (fun c => c ≠ ')')
        if s = [] then none
        else
          match r3 with
          | ')' :: r4 => afterScope g1 s r4
          | _ => none
    | _ => afterScope g1 [] rest

/-- The breaking-change footer prefix `"breaking change:"`. -/
def breakingPfx : List Char := ("breaking change:").toList

/-- Model of `strings.HasPrefix(strings.ToLower(l), "breaking change:")`. -/
def hasBreakingPfx (l : List Char) : Bool :=
  breakingPfx.isPrefixOf (lowerStr l)

/-- Go's `ParseCommit`.  In the multi-line branch the Go code applies
`ParseCommit` recursively to `lines[0]`; since `lines[0]` contains no
newline, `multiLineCommit` cannot match it and the recursive call reduces to
the single-line branch, inlined here as `parseHeader`
(`parseCommit_no_newline` below proves the reduction). -/
def ParseCommit (msg : List Char) : Option ConventionalCommit :=
  if mlm msg then
    match splitOnChar '\n' msg with
    | [] => none
    | l0 :: rest =>
        match parseHeader l0 with
        | none => none
        | some res =>
            some { res with
                   bang := res.bang || rest.any hasBreakingPfx
                   body := joinNl rest }
  else parseHeader msg

/-! ## The bump determiner (`determineBump`) -/

/-- Association lists standing for the Go maps `Context.Rules` and
`Context.Categories`; the list order plays the role of Go's (unspecified)
map iteration order. -/
abbrev KVList := List (List Char × List Char)

/-- First-match lookup in an association list (Go map read `m[k]`;
keys of a Go map are unique). -/
def lookupKV (m : KVList) (k : List Char) : Option (List Char) :=
  match m with
  | [] => none
  | (k0, v0) :: rest => if k0 = k then some v0 else lookupKV rest k

/-- The reserved rule name `"bang"`. -/
def bangStr : List Char := ("bang").toList

/-- Go's `semverFromString`: trim and lower, then look the word up in the
`semverString` table, defaulting to `SemVerNone`. -/
def semverFromString (n : List Char) : SemVerComponent :=
  let n2 := trimSpace (lowerStr n)
  if n2 = ("patch").toList then SemVerPatch
  else if n2 = ("minor").toList then SemVerMinor
  else if n2 = ("major").toList then SemVerMajor
  else SemVerNone

/-- The presence check `_, hasBang := c.Rules["bang"]`. -/
def hasBang (rules : KVList) : Bool :=
  rules.any (fun p => p.1 == bangStr)

/-- The severity the `"bang"` rule configures (`bang` stays `SemVerNone`
when no such rule exists). -/
def bangOf (rules : KVList) : SemVerComponent :=
  match lookupKV rules bangStr with
  | some k => semverFromString k
  | none => SemVerNone

/-- The `components[k]` slice: the names of the non-`"bang"` rules whose configured
kind parses to severity `k`, in map-traversal (list) order. -/
def componentsOf (rules : KVList) (k : SemVerComponent) : List (List Char) :=
  (rules.filter (fun p => p.1 ≠ bangStr ∧ semverFromString p.2 = k)).map Prod.fst

/-- The `compLoop` of `determineBump`: walk the severities in the fixed
order `comps = [Major, Minor, Patch]`; a missing `components` entry and a
severity below `toBump` are skipped; the first severity whose rule-name list
contains the (lowered) commit type wins. -/
def compGo (rules : KVList) (toBump : SemVerComponent) (ty : List Char) :
    List SemVerComponent → SemVerComponent
  | [] => toBump
  | v :: vs =>
      if toBump.val ≤ v.val ∧
          (componentsOf rules v).any (fun pr => lowerStr pr == ty) then v
      else compGo rules toBump ty vs

/-- The body of `determineBump`'s commit loop for one commit: a breaking
commit escalates straight to the bang severity when a `"bang"` rule exists
and its severity is strictly above `toBump` (`continue`); otherwise the
`compLoop` runs on the lowered commit type. -/
def bumpStep (rules : KVList) (toBump : SemVerComponent)
    (r : ConventionalCommit) : SemVerComponent :=
  if r.bang ∧ hasBang rules ∧ toBump.val < (bangOf rules).val then bangOf rules
  else compGo rules toBump (lowerStr r.type) [SemVerMajor, SemVerMinor, SemVerPatch]

/-- The commit loop of `determineBump`: it short-circuits as soon as `toBump`
reaches `SemVerMajor`. -/
def determineBumpGo (rules : KVList) (toBump : SemVerComponent) :
    List ConventionalCommit → SemVerComponent
  | [] => toBump
  | r :: rest =>
      if toBump = SemVerMajor then toBump
      else determineBumpGo rules (bumpStep rules toBump r) rest

/-- Go's `determineBump(c, commits)` (the rules map passed explicitly). -/
def determineBump (rules : KVList) (commits : List ConventionalCommit) :
    SemVerComponent :=
  determineBumpGo rules SemVerNone commits

/-! ## The notes composer (`makeReleaseText`) -/

/-- The reserved wildcard category key `"*"`. -/
def starStr : List Char := ("*").toList

/-- Go's `formatCommit`: `"- **scope**: description"` when a scope is present,
else `"- description"`. -/
def formatCommit (c : ConventionalCommit) : List Char :=
  if c.scope ≠ [] then
    ("- **").toList ++ c.scope ++ ("**: ").toList ++ c.description
  else ("- ").toList ++ c.description

/-- The verbose format used for the `others` bucket:
`"- type(scope): description"` / `"- type: description"`. -/
def otherFormat (c : ConventionalCommit) : List Char :=
  if c.scope ≠ [] then
    ("- ").toList ++ c.type ++ '(' :: c.scope ++ ("): ").toList ++ c.description
  else ("- ").toList ++ c.type ++ (": ").toList ++ c.description

/-- The inner category-matching loop of `makeReleaseText`: the first
non-`"*"` category key equal (case-insensitively) to the commit type, if
any.  `ty` is the already-lowered commit type. -/
def catMatch (cats : KVList) (ty : List Char) : Option (List Char) :=
  (cats.find? (fun p => p.1 ≠ starStr ∧ lowerStr p.1 == ty)).map Prod.fst

/-- Go map-of-slices append `categories[cat] = append(arr, line)` on the
association-list model. -/
def addLine (bs : List (List Char × List (List Char))) (k line : List Char) :
    List (List Char × List (List Char)) :=
  match bs with
  | [] => [(k, [line])]
  | (k0, ls) :: rest =>
      if k0 = k then (k0, ls ++ [line]) :: rest else (k0, ls) :: addLine rest k line

/-- First-match lookup in the buckets map. -/
def lookupBucket (bs : List (List Char × List (List Char))) (k : List Char) :
    Option (List (List Char)) :=
  match bs with
  | [] => none
  | (k0, ls) :: rest => if k0 = k then some ls else lookupBucket rest k

/-- The `categories` buckets built by `makeReleaseText`'s commit loop: each
matched commit is appended (as its `formatCommit` line) under the matching
category key, spelled exactly as configured. -/
def bucketsOf (cats : KVList) (commits : List ConventionalCommit) :
    List (List Char × List (List Char)) :=
  commits.foldl
    (fun bs r =>
      match catMatch cats (lowerStr r.type) with
      | some cat => addLine bs cat (formatCommit r)
      | none => bs)
    []

/-- The `usesOther` flag: whether the wildcard key `"*"` is configured. -/
def usesOther (cats : KVList) : Bool :=
  cats.any (fun p => p.1 == starStr)

/-- The `others` slice `makeReleaseText` collects: the verbose lines of the
commits matching no category, gathered only when `"*"` is configured.  The
Go output loop never reads this slice. -/
def wildcardLines (cats : KVList) (commits : List ConventionalCommit) :
    List (List Char) :=
  if usesOther cats then
    (commits.filter (fun r => (catMatch cats (lowerStr r.type)).isNone)).map
      otherFormat
  else []

/-- Go's `makeReleaseText`: fill the buckets, then emit, per category in
map-traversal (list) order, a `"# title"` heading followed by the bucket
found under the lowercased category key — when such a bucket exists — and
join everything with newlines.  The `others` slice (see `wildcardLines`) is
collected by the Go code but never appended to `output`. -/
def makeReleaseText (cats : KVList) (commits : List ConventionalCommit) :
    List Char :=
  let buckets := bucketsOf cats commits
  joinNl (cats.foldl
    (fun out p =>
      match lookupBucket buckets (lowerStr p.1) with
      | some items => out ++ (("# ").toList ++ p.2) :: items
      | none => out)
    [])

/-! ## The commit-collection loop of `run` -/

/-- The body of `run`'s commit loop (`main.go` lines 192–214) over the
messages below the release boundary: a non-conventional message is skipped;
a parsed commit bumps the `excluded` counter once per ignore entry whose
lowering equals the commit type — and is then appended to `conventionals`
unconditionally, because the Go `continue` in the inner `range c.Ignore`
loop only advances that inner loop. -/
def collectConventionals (ignore : List (List Char))
    (msgs : List (List Char)) : Nat × List ConventionalCommit :=
  msgs.foldl
    (fun acc msg =>
      match ParseCommit (trimSpace msg) with
      | none => acc
      | some conv =>
          (acc.1 + (ignore.filter (fun v => lowerStr v == conv.type)).length,
           acc.2 ++ [conv]))
    (0, [])

/-! ## The version arithmetic of `run` -/

/-- Decimal rendering of a natural number, the model of `fmt.Sprintf`'s
`%d` for the non-negative version components. -/
def natToString (n : Nat) : List Char :=
  if h : n < 10 then [Char.ofNat (48 + n)]
  else natToString (n / 10) ++ [Char.ofNat (48 + n % 10)]
decreasing_by exact Nat.div_lt_self (by omega) (by omega)

/-- Model of `strconv.Atoi` with the error discarded, as `parseSemVer`
does: a non-empty all-digit string yields its value, anything else yields
the `int` zero value.  (Go also accepts a sign prefix and clamps on
overflow; neither reaches `parseSemVer` for the `vMAJOR.MINOR.PATCH` tags
considered here.) -/
def atoi (l : List Char) : Nat :=
  if l ≠ [] ∧ l.all Char.isDigit then
    l.foldl (fun a c => a * 10 + (c.toNat - 48)) 0
  else 0

/-- Model of `strings.TrimPrefix(v, "v")`. -/
def trimPfxV (v : List Char) : List Char :=
  match v with
  | c :: rest => if c = 'v' then rest else v
  | [] => []

/-- Go's `parseSemVer`: split the un-prefixed tag on `.` and `Atoi` the
first three components.  (Go indexes `rawComponents[0..2]` directly and
would panic on fewer than three components; the model reads a missing
component as the empty string, which `atoi` sends to 0 — the claims below
only concern three-component versions.) -/
def parseSemVer (v : List Char) : Nat × Nat × Nat :=
  let comps := splitOnChar '.' (trimPfxV v)
  (atoi (comps.getD 0 []), atoi (comps.getD 1 []), atoi (comps.getD 2 []))

/-- Model of `fmt.Sprintf("v%d.%d.%d", major, minor, patch)`. -/
def formatVersion (major minor patch : Nat) : List Char :=
  'v' :: natToString major ++ '.' :: natToString minor ++ '.' :: natToString patch

/-- The version-bump `switch` of `run` (`main.go` lines 226–243): parse the
latest version, bump it according to the determined severity, and format the
next version — or, on `SemVerNone`, release nothing. -/
def nextVersionModel (latest : List Char) (kind : SemVerComponent) :
    Option (List Char) :=
  let c := parseSemVer latest
  match kind with
  | SemVerPatch => some (formatVersion c.1 c.2.1 (c.2.2 + 1))
  | SemVerMinor => some (formatVersion c.1 (c.2.1 + 1) 0)
  | SemVerMajor => some (formatVersion (c.1 + 1) 0 0)
  | SemVerNone => none

/-! ## Auxiliary observation functions -/

/-- The character that starts at a given UTF-8 byte offset of the modelled
string, if any (positions in `eql.Parse` error messages are byte offsets,
because Go's `range` over a string yields byte offsets). -/
def byteAt : List Char → Nat → Option Char
  | [], _ => none
  | c :: rest, k =>
      if k = 0 then some c
      else if k < c.utf8Size then none
      else byteAt rest (k - c.utf8Size)

/-- Whether the string contains two consecutive newline characters (a blank
line) anywhere. -/
def hasDoubleNl : List Char → Bool
  | c1 :: c2 :: rest => (c1 = '\n' ∧ c2 = '\n') ∨ hasDoubleNl (c2 :: rest)
  | _ => false

/-! ## Concrete fixtures used by the claims' theorems and witnesses

These mirror the example inputs in the spec's “testable properties” and the
repository's tests. -/

/-- The rule map `{fix: patch, feat: minor, bang: major}`. -/
def rules0 : KVList :=
  [(("fix").toList, ("patch").toList),
   (("feat").toList, ("minor").toList),
   (("bang").toList, ("major").toList)]

/-- A plain `fix` commit. -/
def fixC : ConventionalCommit :=
  { type := ("fix").toList, semVerChange := SemVerNone, scope := []
    description := ("a").toList, body := [], bang := false }

/-- A plain `feat` commit. -/
def featC : ConventionalCommit :=
  { fixC with type := ("feat").toList, description := ("b").toList }

/-- A `fix` commit with the breaking flag set. -/
def breakFixC : ConventionalCommit :=
  { fixC with description := ("c").toList, bang := true }

/-- A `docs` commit, matching no configured category below. -/
def docsC : ConventionalCommit :=
  { fixC with type := ("docs").toList, description := ("doc stuff").toList }

/-- The category map `{feat: Features, *: Other}`. -/
def cats0 : KVList :=
  [(("feat").toList, ("Features").toList), (("*").toList, ("Other").toList)]

/-- A two-category map, traversed `feat` first. -/
def catsA : KVList :=
  [(("feat").toList, ("F").toList), (("fix").toList, ("X").toList)]

/-- The same two-category mapping as `catsA`, traversed `fix` first. -/
def catsB : KVList :=
  [(("fix").toList, ("X").toList), (("feat").toList, ("F").toList)]

/-- A scanner state in the middle of an unquoted value (fixture for the
claim-4 witness). -/
def sigV : EqlSt :=
  { st := .value, isEscaping := false, quoteStyle := ' '
    tmpKey := ("a").toList, tmpValue := ("b").toList, result := [], pos := 2 }

/-- A scanner state inside a quoted value with an escape pending (fixture
for the claim-5 witness). -/
def sigQ : EqlSt :=
  { st := .quote, isEscaping := true, quoteStyle := '"'
    tmpKey := ("a").toList, tmpValue := [], result := [], pos := 3 }

/-! # Theorems

General lemmas about the embedding first, then one theorem per claim
(with its witness or counterexample). -/

/-- A newline-free message never matches `multiLineCommit`. -/
theorem mlm_no_newline (msg : List Char) (h : '\n' ∉ msg) : mlm msg = false := by
  induction msg with
  | nil => rfl
  | cons c rest ih =>
      have hrest : '\n' ∉ rest := fun hm => h (List.mem_cons_of_mem c hm)
      have : gapAfter rest = false := by
        cases rest with
        | nil => rfl
        | cons d t =>
            have hd : d ≠ '\n' := fun he => hrest (he ▸ List.mem_cons_self d t)
            simp [gapAfter, List.takeWhile, hd]
      simp [mlm, this, ih hrest]

/-- On a newline-free message `ParseCommit` is exactly the single-line
branch, which justifies inlining the Go recursion `ParseCommit(lines[0])`
as `parseHeader` in the multi-line branch of the embedding. -/
theorem parseCommit_no_newline (msg : List Char) (h : '\n' ∉ msg) :
    ParseCommit msg = parseHeader msg := by
  simp [ParseCommit, mlm_no_newline msg h]

/-- C1 (code bug).  With `ignore = ["chore"]`, the commit `"chore: bump
deps"` is counted as excluded (`excluded = 1`) and is nevertheless appended
to `conventionals`: the `continue` in `run`'s inner `range c.Ignore` loop
only advances that inner loop, so the structured-commit sequence handed to
the bump determiner and the notes composer still contains the commit of the
ignored type, contradicting the run log line "… were excluded". -/
theorem claim1_ignored_commit_retained :
    collectConventionals [("chore").toList] [("chore: bump deps").toList] =
      (1, [{ type := ("chore").toList, semVerChange := SemVerNone, scope := []
             description := ("bump deps").toList, body := [], bang := false }]) := by
  rfl

/-- C2 (code bug).  With categories `{feat: Features, *: Other}`, a `docs`
commit is collected into the `others` slice (`wildcardLines`), yet
`makeReleaseText` emits nothing for it — the Go output loop never reads
`others`, so no wildcard section ever appears; a `feat` commit does land
under its configured title. -/
theorem claim2_wildcard_never_emitted :
    wildcardLines cats0 [docsC] = [("- docs: doc stuff").toList] ∧
    makeReleaseText cats0 [docsC] = [] ∧
    makeReleaseText cats0 [featC, docsC] = ("# Features\n- b").toList :=
  ⟨rfl, rfl, rfl⟩

/-- C3 (confirmed).  With rules `{fix: patch, feat: minor, bang: major}` and
the commits `[fix, feat, breaking-fix]`, `determineBump` returns
`SemVerMajor`; in general, whenever a commit has the breaking flag, a
`"bang"` rule exists and its severity is strictly greater than the current
aggregate, the loop escalates the aggregate to the bang severity and moves
on to the next commit. -/
theorem claim3_bang_escalation :
    determineBump rules0 [fixC, featC, breakFixC] = SemVerMajor ∧
    ∀ (rules : KVList) (cur : SemVerComponent) (c : ConventionalCommit)
      (rest : List ConventionalCommit),
      c.bang = true → hasBang rules = true → cur.val < (bangOf rules).val →
      determineBumpGo rules cur (c :: rest) =
        determineBumpGo rules (bangOf rules) rest := by
  refine ⟨by decide, ?_⟩
  intro rules cur c rest hb hh hlt
  have hcur : cur ≠ SemVerMajor := by
    intro h
    subst h
    cases hbv : bangOf rules <;> rw [hbv] at hlt <;>
      simp [SemVerComponent.val] at hlt
  have hstep : bumpStep rules cur c = bangOf rules := by
    simp [bumpStep, hb, hh, hlt]
  simp only [determineBumpGo, if_neg hcur, hstep]

/-- Witness for C3: the escalation step applied at a concrete input —
from aggregate `SemVerMinor`, the breaking `fix` commit escalates to the
configured bang severity of `rules0`. -/
theorem claim3_witness :
    determineBumpGo rules0 SemVerMinor [breakFixC] =
      determineBumpGo rules0 (bangOf rules0) [] :=
  claim3_bang_escalation.2 rules0 SemVerMinor breakFixC [] rfl (by decide)
    (by decide)

/-- Counterexample to C4 as stated.  In `a=b"c"` the value has already begun
with `b`, yet the parser does not keep the `"` as an ordinary character of
an unquoted value `b"c"`: it enters quote mode at the `"` (Go's `&&` binds
tighter than `||` in `r == '"' || r == '\'' && len(tmpValue) == 0`) and
yields the value `bc`. -/
theorem claim4_counterexample :
    eqlParse (("a=b\"c\"").toList) = .ok [(("a").toList, ("bc").toList)] ∧
    ("bc").toList ≠ ("b\"c\"").toList :=
  ⟨rfl, by decide⟩

/-- C4 (corrected).  In value state, a `"` enters quote mode regardless of
whether the value has begun; a `'` enters quote mode only as the first
character of the value and is accumulated as an ordinary character
afterwards; an unquoted value is terminated by the next space. -/
theorem claim4_amended (σ : EqlSt) (hst : σ.st = .value) :
    (σ.tmpValue ≠ [] →
      eqlStep σ '"' =
        .ok { σ with st := .quote, quoteStyle := '"', pos := σ.pos + 1 } ∧
      eqlStep σ '\'' =
        .ok { σ with tmpValue := σ.tmpValue ++ ['\''], pos := σ.pos + 1 }) ∧
    (σ.tmpValue = [] →
      eqlStep σ '"' =
        .ok { σ with st := .quote, quoteStyle := '"', pos := σ.pos + 1 } ∧
      eqlStep σ '\'' =
        .ok { σ with st := .quote, quoteStyle := '\'', pos := σ.pos + 1 }) ∧
    (σ.tmpValue ≠ [] →
      eqlStep σ ' ' = .ok (pushAndReset { σ with pos := σ.pos + 1 })) := by
  have h1 : ('"').utf8Size = 1 := by decide
  have h2 : ('\'').utf8Size = 1 := by decide
  have h3 : (' ').utf8Size = 1 := by decide
  obtain ⟨st, esc, qs, tk, tv, res, pos⟩ := σ
  simp only [EqlSt.st] at hst
  subst hst
  refine ⟨fun h => ⟨?_, ?_⟩, fun h => ⟨?_, ?_⟩, fun h => ?_⟩ <;>
    simp_all [eqlStep]

/-- Witness for C4: from the concrete mid-value state `sigV`, a `"` enters
quote mode. -/
theorem claim4_witness :
    eqlStep sigV '"' = .ok { sigV with st := .quote, quoteStyle := '"', pos := 3 } :=
  ((claim4_amended sigV rfl).1 (by decide)).1

/-- Counterexample to C5 as stated.  In `a="\\x"` the character escaped by
the first backslash is itself a backslash; the claim mandates keeping both
characters (value `\\x`), but the `r == '\\'` branch runs before the
escape-pending branch, so the second backslash is consumed, escape stays
pending, and the value is `\x`. -/
theorem claim5_counterexample :
    eqlParse (("a=\"\\\\x\"").toList) = .ok [(("a").toList, ("\\x").toList)] ∧
    ("\\x").toList ≠ ("\\\\x").toList :=
  ⟨rfl, by decide⟩

/-- C5 (corrected).  In quote mode a backslash always (re)marks
escape-pending — even when an escape is already pending, so an escaped
backslash contributes nothing by itself; a pending escape on the delimiter
keeps only the delimiter; a pending escape on any other non-backslash
character keeps both the backslash and the character; and the concrete
example `abc="def \" ghi"` parses to `{abc: def " ghi}`. -/
theorem claim5_amended (σ : EqlSt) (hst : σ.st = .quote) :
    eqlStep σ '\\' = .ok { σ with isEscaping := true, pos := σ.pos + 1 } ∧
    (σ.isEscaping = true → ∀ r : Char, r ≠ '\\' → r ≠ σ.quoteStyle →
      eqlStep σ r =
        .ok { σ with
              tmpValue := σ.tmpValue ++ ['\\', r]
              isEscaping := false
              pos := σ.pos + r.utf8Size }) ∧
    (σ.isEscaping = true → σ.quoteStyle ≠ '\\' →
      eqlStep σ σ.quoteStyle =
        .ok { σ with
              tmpValue := σ.tmpValue ++ [σ.quoteStyle]
              isEscaping := false
              pos := σ.pos + σ.quoteStyle.utf8Size }) ∧
    eqlParse (("abc=\"def \\\" ghi\"").toList) =
      .ok [(("abc").toList, ("def \" ghi").toList)] := by
  have h4 : ('\\').utf8Size = 1 := by decide
  obtain ⟨st, esc, qs, tk, tv, res, pos⟩ := σ
  simp only [EqlSt.st] at hst
  subst hst
  refine ⟨?_, fun he r hr hq => ?_, fun he hq => ?_, rfl⟩ <;>
    simp_all [eqlStep]

/-- Witness for C5: from the concrete escape-pending state `sigQ`, the
escaped `x` keeps both the backslash and the `x`. -/
theorem claim5_witness :
    eqlStep sigQ 'x' =
      .ok { sigQ with tmpValue := [ '\\', 'x' ], isEscaping := false, pos := 4 } :=
  (claim5_amended sigQ rfl).2.1 rfl 'x' (by decide) (by decide)

/-- Counterexample to C8 as stated.  The output of the composer is not a
function of the category mapping alone: `catsA` and `catsB` are the same
mapping (one is the reverse of the other) traversed in different orders —
which Go's unordered map ranging permits on identical inputs — and they
produce different texts. -/
theorem claim8_counterexample :
    makeReleaseText catsA [featC, fixC] ≠ makeReleaseText catsB [featC, fixC] ∧
    catsB = catsA.reverse :=
  ⟨by decide, by decide⟩

/-- C8 (corrected).  The composer is a pure function: two runs on the same
commit sequence and the same category mapping traversed in the same order
produce identical output.  (Across runs, Go's unordered map traversal can
permute the sections — see the counterexample.) -/
theorem claim8_deterministic_given_order (cats1 cats2 : KVList)
    (commits : List ConventionalCommit) (h : cats1 = cats2) :
    makeReleaseText cats1 commits = makeReleaseText cats2 commits := by
  rw [h]

/-- Witness for C8: the two runs on `catsA` coincide. -/
theorem claim8_witness :
    makeReleaseText catsA [featC, fixC] = makeReleaseText catsA [featC, fixC] :=
  claim8_deterministic_given_order catsA catsA [featC, fixC] rfl
/-- When a prefix list contains a character failing `p`, appending more
input changes neither its `takeWhile` nor the prefix part of its
`dropWhile`. -/
theorem takeWhile_append_of_stop {p : Char → Bool} (xs ys : List Char)
    (h : xs.dropWhile p ≠ []) :
    (xs ++ ys).takeWhile p = xs.takeWhile p ∧
    (xs ++ ys).dropWhile p = xs.dropWhile p ++ ys := by
  induction xs with
  | nil => simp at h
  | cons x xs ih =>
      by_cases hp : p x
      · have h2 : xs.dropWhile p ≠ [] := by
          simpa [List.dropWhile_cons, hp] using h
        obtain ⟨h3, h4⟩ := ih h2
        simp [List.takeWhile_cons, List.dropWhile_cons, hp, h3, h4]
      · simp [List.takeWhile_cons, List.dropWhile_cons, hp]

/-- Appending a newline and arbitrary text to a successfully matched
header suffix breaks the match: the description group `[^\n]+$` can contain
no newline and must reach the end of the text. -/
theorem afterScope_append_nl (g1 s r4 R : List Char) (c : ConventionalCommit)
    (h : afterScope g1 s r4 = some c) :
    afterScope g1 s (r4 ++ '\n' :: R) = none := by
  unfold afterScope at h ⊢
  split at h
  next d =>
    simp only [List.cons_append]
    have : ((d ++ '\n' :: R).all (fun ch => ch ≠ '\n')) = false := by
      simp [List.all_append]
    simp [this]
  next d =>
    simp only [List.cons_append]
    have : ((d ++ '\n' :: R).all (fun ch => ch ≠ '\n')) = false := by
      simp [List.all_append]
    simp [this]
  next =>
    exact absurd h (by simp)

/-- Appending a newline and arbitrary text to a message whose whole text
matches `conventionalRegexp` breaks the match: the appended newline can only
fall into the description group, which excludes newlines. -/
theorem parseHeader_append_nl (L R : List Char) (c : ConventionalCommit)
    (hL : parseHeader L = some c) :
    parseHeader (L ++ '\n' :: R) = none := by
  unfold parseHeader at hL ⊢
  by_cases hg : L.takeWhile (fun ch => ¬ headerBad ch) = []
  · rw [if_pos hg] at hL
    exact absurd hL (by simp)
  · rw [if_neg hg] at hL
    by_cases hd : L.dropWhile (fun ch => ¬ headerBad ch) = []
    · rw [hd] at hL
      exact absurd hL (by simp [afterScope])
    · obtain ⟨ht, hdr⟩ :=
        takeWhile_append_of_stop (p := fun ch => ¬ headerBad ch) L ('\n' :: R) hd
      rw [ht, hdr, if_neg hg]
      split at hL
      next r2 heq =>
        -- restL = '(' :: r2
        rw [heq]
        simp only [List.cons_append]
        by_cases hs : r2.takeWhile (fun ch => ch ≠ ')') = []
        · rw [if_pos hs] at hL
          exact absurd hL (by simp)
        · rw [if_neg hs] at hL
          split at hL
          next r4 heq3 =>
            -- dropWhile (≠ ')') r2 = ')' :: r4
            have hne : r2.dropWhile (fun ch => ch ≠ ')') ≠ [] := by
              rw [heq3]; simp
            obtain ⟨ht2, hdr2⟩ :=
              takeWhile_append_of_stop (p := fun ch => ch ≠ ')') r2 ('\n' :: R) hne
            rw [ht2, hdr2, heq3, if_neg hs]
            simp only [List.cons_append]
            exact afterScope_append_nl _ _ _ _ _ hL
          next heq3 =>
            exact absurd hL (by simp)
      next hne2 =>
        -- restL does not start with '('
        split
        next r2 heq4 =>
          -- (restL ++ '\n' :: R) = '(' :: r2 : impossible
          exfalso
          cases hr : L.dropWhile (fun ch => ¬ headerBad ch) with
          | nil => exact hd hr
          | cons rc rl =>
              rw [hr] at heq4
              simp only [List.cons_append, List.cons.injEq] at heq4
              exact hne2 rl (by rw [hr, heq4.1])
        next hne3 =>
          exact afterScope_append_nl _ _ _ _ _ hL
/-- Go's `strings.Split` always returns at least one piece. -/
theorem splitOnChar_ne_nil (sep : Char) (l : List Char) : splitOnChar sep l ≠ [] := by
  cases l with
  | nil => simp [splitOnChar]
  | cons c rest =>
      by_cases h : c = sep
      · simp [splitOnChar, h]
      · simp only [splitOnChar, if_neg h]
        cases hs : splitOnChar sep rest <;> simp

/-- The first piece of a split is the separator-free prefix. -/
theorem splitOnChar_headD (sep : Char) (l : List Char) :
    (splitOnChar sep l).headD [] = l.takeWhile (fun c => c ≠ sep) := by
  induction l with
  | nil => rfl
  | cons c rest ih =>
      by_cases h : c = sep
      · simp [splitOnChar, h, List.takeWhile_cons]
      · cases hs : splitOnChar sep rest with
        | nil => exact absurd hs (splitOnChar_ne_nil sep rest)
        | cons h0 t =>
            rw [hs] at ih
            simp only [List.headD] at ih
            simp [splitOnChar, h, hs, List.takeWhile_cons, ih]

/-- Joining the pieces of a newline split restores the message verbatim
(which is why multi-line bodies keep their blank lines). -/
theorem joinNl_splitOnChar (msg : List Char) :
    joinNl (splitOnChar '\n' msg) = msg := by
  induction msg with
  | nil => rfl
  | cons c rest ih =>
      by_cases h : c = '\n'
      · subst h
        cases hs : splitOnChar '\n' rest with
        | nil => exact absurd hs (splitOnChar_ne_nil _ _)
        | cons h0 t =>
            rw [hs] at ih
            simp [splitOnChar, joinNl, hs, ih]
      · cases hs : splitOnChar '\n' rest with
        | nil => exact absurd hs (splitOnChar_ne_nil _ _)
        | cons h0 t =>
            rw [hs] at ih
            cases t with
            | nil => simp [splitOnChar, h, hs, joinNl] at ih ⊢; exact ih
            | cons t0 ts => simp [splitOnChar, h, hs, joinNl] at ih ⊢; exact ih

/-- A string containing the separator splits into at least two pieces. -/
theorem splitOnChar_tail_ne_nil (sep : Char) (l : List Char) (h : sep ∈ l) :
    (splitOnChar sep l).tail ≠ [] := by
  induction l with
  | nil => simp at h
  | cons c rest ih =>
      by_cases hc : c = sep
      · simp only [splitOnChar, if_pos hc, List.tail]
        exact splitOnChar_ne_nil sep rest
      · have hmem : sep ∈ rest := by
          rcases List.mem_cons.mp h with h1 | h2
          · exact absurd h1.symm hc
          · exact h2
        cases hs : splitOnChar sep rest with
        | nil => exact absurd hs (splitOnChar_ne_nil sep rest)
        | cons h0 t =>
            have := ih hmem
            rw [hs] at this
            simp only [List.tail] at this
            simp [splitOnChar, hc, hs, this]

/-- A message matching `multiLineCommit` contains a newline. -/
theorem mem_nl_of_mlm (msg : List Char) (h : mlm msg = true) : '\n' ∈ msg := by
  induction msg with
  | nil => simp [mlm] at h
  | cons c rest ih =>
      simp only [mlm, decide_eq_true_eq] at h
      rcases h with ⟨hc, hg⟩ | hr
      · cases rest with
        | nil => simp [gapAfter] at hg
        | cons d t =>
            by_cases hd : d = '\n'
            · subst hd
              exact List.mem_cons_of_mem c (List.mem_cons_self _ _)
            · simp [gapAfter, List.takeWhile_cons, hd] at hg
      · exact List.mem_cons_of_mem c (ih hr)
/-- C6 (confirmed).  For every message taking the multi-line branch whose
first line parses as a header, every subsequent line is scanned
case-insensitively for the prefix `"breaking change:"` — any match sets
`bang` even when the header carried no `!` — and the remaining lines become
the body verbatim: the message is exactly the first line, a newline, and
the body (blank lines included). -/
theorem claim6_multiline_breaking (msg : List Char) (c : ConventionalCommit)
    (hm : mlm msg = true)
    (hh : parseHeader ((splitOnChar '\n' msg).headD []) = some c) :
    ParseCommit msg =
      some { c with
             bang := c.bang || (splitOnChar '\n' msg).tail.any hasBreakingPfx
             body := joinNl (splitOnChar '\n' msg).tail } ∧
    msg = (splitOnChar '\n' msg).headD [] ++
      '\n' :: joinNl (splitOnChar '\n' msg).tail := by
  have hnl : '\n' ∈ msg := mem_nl_of_mlm msg hm
  have htail := splitOnChar_tail_ne_nil '\n' msg hnl
  have hj := joinNl_splitOnChar msg
  cases hs : splitOnChar '\n' msg with
  | nil => exact absurd hs (splitOnChar_ne_nil _ _)
  | cons l0 rest =>
      rw [hs] at hh htail hj
      simp only [List.headD] at hh
      simp only [List.headD, List.tail]
      cases rest with
      | nil => simp at htail
      | cons r0 rs =>
          constructor
          · simp [ParseCommit, hm, hs, hh]
          · simp only [joinNl] at hj
            exact hj.symm

/-- A message with no two consecutive newlines cannot match
`multiLineCommit`. -/
theorem mlm_false_of_no_double (msg : List Char)
    (h : hasDoubleNl msg = false) : mlm msg = false := by
  induction msg with
  | nil => rfl
  | cons c rest ih =>
      have h2 : hasDoubleNl rest = false := by
        cases rest with
        | nil => rfl
        | cons d t =>
            simp only [hasDoubleNl, decide_eq_false_iff_not, not_or] at h
            exact Bool.eq_false_iff.mpr h.2
      have hg : gapAfter rest = false := by
        cases rest with
        | nil => rfl
        | cons d t =>
            by_cases hd : d = '\n'
            · subst hd
              cases t with
              | nil => simp [gapAfter, List.takeWhile_cons]
              | cons e ts =>
                  by_cases he : e = '\n'
                  · subst he
                    simp [hasDoubleNl] at h
                  · simp [gapAfter, List.takeWhile_cons, he]
            · simp [gapAfter, List.takeWhile_cons, hd]
      simp only [mlm, decide_eq_false_iff_not, not_or]
      constructor
      · exact fun hh => by simp [hg] at hh
      · simp [ih h2]

/-- A message containing a newline decomposes after its newline-free
prefix. -/
theorem dropWhile_nl_decomp (msg : List Char) (h : '\n' ∈ msg) :
    ∃ Rt, msg.dropWhile (fun ch => ch ≠ '\n') = '\n' :: Rt := by
  induction msg with
  | nil => simp at h
  | cons c rest ih =>
      by_cases hc : c = '\n'
      · subst hc
        exact ⟨rest, by simp [List.dropWhile_cons]⟩
      · have hmem : '\n' ∈ rest := by
          rcases List.mem_cons.mp h with h1 | h2
          · exact absurd h1.symm hc
          · exact h2
        obtain ⟨Rt, hRt⟩ := ih hmem
        refine ⟨Rt, ?_⟩
        rw [List.dropWhile_cons, if_pos (by simp [hc]), hRt]

/-- C10 (corrected).  A message that contains a newline but no blank line
(no two consecutive newlines) and whose first line matches the header
pattern is classified not conventional: the multi-line branch needs two
consecutive newlines, and the header pattern — although it can accept a
newline inside its type or scope group — cannot accept one in a message
whose first line already matches (the first line then contains the `": "`,
which cannot precede a newline in a full match). -/
theorem claim10_amended (msg : List Char)
    (hnl : '\n' ∈ msg) (hnd : hasDoubleNl msg = false)
    (hhdr : ∃ c, parseHeader (msg.takeWhile (fun ch => ch ≠ '\n')) = some c) :
    ParseCommit msg = none := by
  obtain ⟨c, hc⟩ := hhdr
  obtain ⟨Rt, hR⟩ := dropWhile_nl_decomp msg hnl
  have hdecomp : msg = msg.takeWhile (fun ch => ch ≠ '\n') ++ '\n' :: Rt := by
    conv_lhs => rw [← List.takeWhile_append_dropWhile (fun ch => ch ≠ '\n') msg]
    rw [hR]
  have hm : mlm msg = false := mlm_false_of_no_double msg hnd
  have h1 : ParseCommit msg = parseHeader msg := by
    simp [ParseCommit, hm]
  rw [h1]
  conv_lhs => rw [hdecomp]
  exact parseHeader_append_nl _ _ _ hc
/-- Witness for C6 at a concrete message: a `BREAKING CHANGE:` body line
sets `bang` although the header `feat: x` has no `!`, and the body keeps
its leading blank line. -/
theorem claim6_witness :
    ParseCommit (("feat: x\n\nBREAKING CHANGE: y").toList) =
      some { type := ("feat").toList
             semVerChange := SemVerNone
             scope := []
             description := ("x").toList
             body := ("\nBREAKING CHANGE: y").toList
             bang := true } :=
  (claim6_multiline_breaking (("feat: x\n\nBREAKING CHANGE: y").toList)
      { type := ("feat").toList
        semVerChange := SemVerNone
        scope := []
        description := ("x").toList
        body := []
        bang := false }
      (by decide) (by decide)).1.trans (by decide)

/-- Counterexample to C10's final clause as stated: the single-line header
pattern does not reject every message containing a newline — `fe\nat: x`
contains a newline inside the type group `[^(:!]+` and parses. -/
theorem claim10_counterexample :
    ParseCommit (("fe\nat: x").toList) =
      some { type := ("fe\nat").toList
             semVerChange := SemVerNone
             scope := []
             description := ("x").toList
             body := []
             bang := false } ∧
    '\n' ∈ (("fe\nat: x").toList) :=
  ⟨rfl, by decide⟩

/-- Witness for C10 at a concrete message: `feat: x\nmore stuff` has a
parsing first line, a single newline, no blank line — and is rejected. -/
theorem claim10_witness :
    ParseCommit (("feat: x\nmore stuff").toList) = none :=
  claim10_amended (("feat: x\nmore stuff").toList) (by decide) (by decide)
    ⟨{ type := ("feat").toList
       semVerChange := SemVerNone
       scope := []
       description := ("x").toList
       body := []
       bang := false }, by decide⟩

/-- The only error a scan step can raise is the stray-equals error: it
requires key state, an empty pending key and the rune `=`, and it reports
position `pos + 1`, the 1-based byte index of that `=`. -/
theorem eqlStep_error (σ : EqlSt) (r : Char) (e : EqlErr)
    (h : eqlStep σ r = .error e) :
    e = .unexpectedEq (σ.pos + 1) ∧ σ.st = .key ∧ σ.tmpKey = [] ∧ r = '=' := by
  obtain ⟨st, esc, qs, tk, tv, res, pos⟩ := σ
  cases st <;> simp only [eqlStep] at h <;> split_ifs at h <;> simp_all

/-- A successful scan step advances the byte position by the rune's UTF-8
size, exactly as Go's `range` does. -/
theorem eqlStep_pos (σ : EqlSt) (r : Char) (σ2 : EqlSt)
    (h : eqlStep σ r = .ok σ2) : σ2.pos = σ.pos + r.utf8Size := by
  obtain ⟨st, esc, qs, tk, tv, res, pos⟩ := σ
  cases st <;> simp only [eqlStep] at h <;> split_ifs at h <;>
    simp_all [pushAndReset] <;> subst h <;> rfl

/-- Every character occupies at least one byte. -/
theorem char_utf8Size_pos (c : Char) : 1 ≤ c.utf8Size := by
  unfold Char.utf8Size
  dsimp only
  split_ifs <;> omega
/-- Position invariant of the scan loop: a stray-equals error raised while
scanning reports one more than the byte offset of an actual `=` character
of the remaining input. -/
theorem eqlRun_unexpectedEq (l : List Char) : ∀ (σ : EqlSt) (p : Nat),
    eqlRun σ l = .error (.unexpectedEq p) →
    σ.pos + 1 ≤ p ∧ byteAt l (p - 1 - σ.pos) = some '=' := by
  induction l with
  | nil => intro σ p h; simp [eqlRun] at h
  | cons c rest ih =>
      intro σ p h
      simp only [eqlRun] at h
      cases hstep : eqlStep σ c with
      | error e =>
          rw [hstep] at h
          simp only [Except.error.injEq] at h
          obtain ⟨he, hst, hk, hr⟩ := eqlStep_error σ c e hstep
          rw [he] at h
          have hp : p = σ.pos + 1 := by
            cases h; rfl
          subst hp
          refine ⟨le_refl _, ?_⟩
          have : σ.pos + 1 - 1 - σ.pos = 0 := by omega
          rw [this, byteAt, if_pos rfl, hr]
      | ok σ2 =>
          rw [hstep] at h
          obtain ⟨h1, h2⟩ := ih σ2 p h
          have hp : σ2.pos = σ.pos + c.utf8Size := eqlStep_pos σ c σ2 hstep
          have hu : 1 ≤ c.utf8Size := char_utf8Size_pos c
          constructor
          · omega
          · have hk0 : p - 1 - σ.pos ≠ 0 := by omega
            have hk1 : ¬ (p - 1 - σ.pos < c.utf8Size) := by omega
            rw [byteAt, if_neg hk0, if_neg hk1]
            have : p - 1 - σ.pos - c.utf8Size = p - 1 - σ2.pos := by omega
            rw [this]
            exact h2

/-- A stray-equals error of `eql.Parse` reports a 1-based position whose
byte offset holds an `=` character of the input. -/
theorem eqlParse_unexpectedEq (l : List Char) (p : Nat)
    (h : eqlParse l = .error (.unexpectedEq p)) :
    1 ≤ p ∧ byteAt l (p - 1) = some '=' := by
  unfold eqlParse at h
  cases hr : eqlRun eqlInit l with
  | error e =>
      rw [hr] at h
      simp only [Except.error.injEq] at h
      rw [h] at hr
      have := eqlRun_unexpectedEq l eqlInit p hr
      simpa [eqlInit] using this
  | ok σ =>
      rw [hr] at h
      simp only [] at h
      split_ifs at h <;> simp_all

/-- C7 (corrected).  The scanner fails with the stray-equals
`ConfigSyntaxError` exactly when it encounters `=` in key state with an
empty pending key, and the reported position is the 1-based BYTE index of
that `=` (the spec's test input is reproduced); `eql.Parse` can additionally
fail with the unterminated-quote error, so the stray `=` is not the only
failure (see the counterexample). -/
theorem claim7_amended :
    (∀ (σ : EqlSt) (r : Char) (e : EqlErr), eqlStep σ r = .error e →
      e = .unexpectedEq (σ.pos + 1) ∧ σ.st = .key ∧ σ.tmpKey = [] ∧ r = '=') ∧
    (∀ (l : List Char) (p : Nat), eqlParse l = .error (.unexpectedEq p) →
      1 ≤ p ∧ byteAt l (p - 1) = some '=') ∧
    eqlParse ((" =path test = true").toList) = .error (.unexpectedEq 2) :=
  ⟨eqlStep_error, eqlParse_unexpectedEq, rfl⟩

/-- Witness for C7: on the spec's test input the reported position 2 is
the 1-based byte index of the stray `=`. -/
theorem claim7_witness :
    1 ≤ 2 ∧ byteAt ((" =path test = true").toList) 1 = some '=' :=
  claim7_amended.2.1 ((" =path test = true").toList) 2 rfl

/-- Counterexample to C7 as stated: `a="b` fails (unterminated quote)
although no `=` is ever encountered with an empty pending key, and on
`é=a =b` the reported position 6 is a byte index — the stray `=` is the
5th character (0-based index 4), so its 1-based character index is 5, not
6 (`é` occupies two bytes). -/
theorem claim7_counterexample :
    eqlParse (("a=\"b").toList) = .error .unterminated ∧
    eqlParse (("é=a =b").toList) = .error (.unexpectedEq 6) ∧
    (("é=a =b").toList).get? 4 = some '=' ∧ (6 : Nat) ≠ 4 + 1 :=
  ⟨rfl, rfl, by decide, by decide⟩
/-- The decimal digit characters are digits. -/
theorem digitChar_isDigit (d : Nat) (h : d < 10) :
    (Char.ofNat (48 + d)).isDigit = true := by
  interval_cases d <;> decide

/-- The code point of a decimal digit character. -/
theorem digitChar_toNat (d : Nat) (h : d < 10) :
    (Char.ofNat (48 + d)).toNat = 48 + d := by
  interval_cases d <;> decide

/-- A rendered number is never empty. -/
theorem natToString_ne_nil (n : Nat) : natToString n ≠ [] := by
  rw [natToString]
  split <;> simp

/-- A rendered number consists of decimal digits only. -/
theorem natToString_all_digits (n : Nat) :
    (natToString n).all Char.isDigit = true := by
  induction n using Nat.strong_induction_on with
  | _ n ih =>
      rw [natToString]
      split
      next h => simpa using digitChar_isDigit n h
      next h =>
        have hlt : n / 10 < n := Nat.div_lt_self (by omega) (by omega)
        have hmod : n % 10 < 10 := Nat.mod_lt _ (by omega)
        simp only [List.all_append, Bool.and_eq_true]
        exact ⟨ih _ hlt, by simpa using digitChar_isDigit _ hmod⟩

/-- The accumulating digit fold of `atoi` over a rendered number. -/
theorem natToString_foldl (n : Nat) : ∀ acc : Nat,
    (natToString n).foldl (fun a c => a * 10 + (c.toNat - 48)) acc =
      acc * 10 ^ (natToString n).length + n := by
  induction n using Nat.strong_induction_on with
  | _ n ih =>
      intro acc
      rw [natToString]
      split
      next h =>
          simp [List.foldl, digitChar_toNat n h]
      next h =>
          have hlt : n / 10 < n := Nat.div_lt_self (by omega) (by omega)
          have hmod : n % 10 < 10 := Nat.mod_lt _ (by omega)
          rw [List.foldl_append, ih _ hlt acc]
          simp only [List.foldl, digitChar_toNat _ hmod, List.length_append,
            List.length_cons, List.length_nil]
          have hdm := Nat.div_add_mod n 10
          have hpow : (10 : Nat) ^ ((natToString (n / 10)).length + (0 + 1)) =
              10 ^ (natToString (n / 10)).length * 10 := by
            ring
          rw [hpow]
          have : 48 + n % 10 - 48 = n % 10 := by omega
          rw [this]
          generalize (10 : Nat) ^ (natToString (n / 10)).length = P
          have : (acc * P + n / 10) * 10 = acc * (P * 10) + (n / 10) * 10 := by ring
          rw [this]
          omega

/-- Reading back a rendered number recovers it (`Atoi` after `%d`). -/
theorem atoi_natToString (n : Nat) : atoi (natToString n) = n := by
  unfold atoi
  rw [if_pos ⟨natToString_ne_nil n, natToString_all_digits n⟩]
  simpa using natToString_foldl n 0
/-- A digit string contains no dot. -/
theorem dot_not_mem_digits (l : List Char) (h : l.all Char.isDigit = true) :
    '.' ∉ l := by
  intro hm
  have := List.all_eq_true.mp h '.' hm
  exact absurd this (by decide)

/-- A separator-free string splits into a single piece. -/
theorem splitOnChar_sep_free (sep : Char) (A : List Char) (h : sep ∉ A) :
    splitOnChar sep A = [A] := by
  induction A with
  | nil => rfl
  | cons c rest ih =>
      have hc : c ≠ sep := fun he => h (he ▸ List.mem_cons_self c rest)
      have hrest : sep ∉ rest := fun hm => h (List.mem_cons_of_mem c hm)
      simp [splitOnChar, hc, ih hrest]

/-- Splitting peels off a separator-free prefix at its separator. -/
theorem splitOnChar_append_sep (sep : Char) (A B : List Char) (h : sep ∉ A) :
    splitOnChar sep (A ++ sep :: B) = A :: splitOnChar sep B := by
  induction A with
  | nil => simp [splitOnChar]
  | cons c rest ih =>
      have hc : c ≠ sep := fun he => h (he ▸ List.mem_cons_self c rest)
      have hrest : sep ∉ rest := fun hm => h (List.mem_cons_of_mem c hm)
      simp [splitOnChar, hc, ih hrest]

/-- Round trip of `run`'s version handling: `parseSemVer` recovers the
three components of a formatted `vMAJOR.MINOR.PATCH` tag. -/
theorem parseSemVer_format (M m p : Nat) :
    parseSemVer (formatVersion M m p) = (M, m, p) := by
  have hM := dot_not_mem_digits _ (natToString_all_digits M)
  have hm := dot_not_mem_digits _ (natToString_all_digits m)
  have hp := dot_not_mem_digits _ (natToString_all_digits p)
  have htrim : ∀ X : List Char, trimPfxV ('v' :: X) = X := by
    intro X
    simp [trimPfxV]
  unfold parseSemVer formatVersion
  dsimp only
  simp only [List.cons_append]
  rw [htrim]
  simp only [List.cons_append, List.append_assoc]
  rw [splitOnChar_append_sep '.' (natToString M)
        (natToString m ++ '.' :: natToString p) hM]
  rw [splitOnChar_append_sep '.' (natToString m) (natToString p) hm]
  rw [splitOnChar_sep_free '.' (natToString p) hp]
  simp [List.getD, atoi_natToString]

/-- C9 (confirmed).  From a prior version `vM.m.p`: `SemVerPatch` yields
`vM.m.(p+1)`, `SemVerMinor` yields `vM.(m+1).0`, `SemVerMajor` yields
`v(M+1).0.0`, and `SemVerNone` yields no version at all (no release), the
result formatted exactly as `vMAJOR.MINOR.PATCH`. -/
theorem claim9_version_bump (M m p : Nat) :
    nextVersionModel (formatVersion M m p) SemVerPatch =
      some (formatVersion M m (p + 1)) ∧
    nextVersionModel (formatVersion M m p) SemVerMinor =
      some (formatVersion M (m + 1) 0) ∧
    nextVersionModel (formatVersion M m p) SemVerMajor =
      some (formatVersion (M + 1) 0 0) ∧
    nextVersionModel (formatVersion M m p) SemVerNone = none := by
  have h := parseSemVer_format M m p
  refine ⟨?_, ?_, ?_, ?_⟩ <;> simp [nextVersionModel, h]

end SemverReleaser
